import Mathlib

/-
Verification of the phylo-movies core algorithms.

The definitions below are shallow embeddings of the Python source:
  - phylomovie/services/coloring_algorithm/algorithm_5.py (jump-taxon voting engine)
  - phylomovie/services/coloring_algorithm/main/main_find_highlights.py (Node)
  - phylomovie/services/tree/Treere.py (decoder and consensus-tree synthesizer)
Machine floats are modelled as exact rationals, Python dicts as association
lists with later-binding-wins lookup, and an uncaught Python exception as an
Option/Except error value threaded out of the embedded function.
-/

namespace Phylo

/-- Component of algorithm_5.py: a tuple of leaf indices. -/
abbrev Component := List Nat

/-- ComponentSet of algorithm_5.py: a tuple of components. -/
abbrev ComponentSet := List Component

/-- Python sorted(...) on a list of int tuples: lexicographic order. -/
def pySort (l : List Component) : List Component :=
  l.insertionSort (fun a b => a ≤ b)

/-- Embeds cartesian (algorithm_5.py lines 173-178): all pairs, left-major order. -/
def cartesian (c1 : List α) (c2 : List β) : List (α × β) :=
  c1.flatMap (fun x => c2.map (fun y => (x, y)))

/-- Embeds map2 (algorithm_5.py lines 188-193). -/
def map2 (f : α → α → β) (l : List (α × α)) : List β :=
  l.map (fun p => f p.1 p.2)

/-- Embeds map1 (algorithm_5.py lines 181-185). -/
def map1 (f : α → β) (l : List α) : List β :=
  l.map f

/-- Embeds count (algorithm_5.py lines 210-211): Python list.count. -/
def countL [DecidableEq α] (a : List α) (x : α) : Nat :=
  (a.filter (fun y => decide (y = x))).length

/-- Embeds size (algorithm_5.py lines 214-215). -/
def size (a : List α) : Nat := a.length

/-- Embeds union (algorithm_5.py lines 206-207): list concatenation. -/
def union (a b : List α) : List α := a ++ b

/-- One step of the argmax loop (algorithm_5.py lines 218-228); the running
maximum starts at -1, so it is an Int. -/
def argmaxStep (f : α → Nat) (p : Int × List α) (x : α) : Int × List α :=
  let c : Int := f x
  if c > p.1 then (c, [x]) else if c = p.1 then (p.1, p.2 ++ [x]) else p

/-- Embeds argmax (algorithm_5.py lines 218-228). -/
def argmax (l : List α) (f : α → Nat) : List α :=
  (l.foldl (argmaxStep f) (-1, [])).2

/-- One step of the argmin loop (algorithm_5.py lines 231-241); the running
minimum starts at numpy inf, modelled as none. -/
def argminStep (f : α → Nat) (p : Option Nat × List α) (x : α) : Option Nat × List α :=
  let c := f x
  match p.1 with
  | none => (some c, [x])
  | some m => if c < m then (some c, [x]) else if c = m then (some m, p.2 ++ [x]) else p

/-- Embeds argmin (algorithm_5.py lines 231-241). -/
def argmin (l : List α) (f : α → Nat) : List α :=
  (l.foldl (argminStep f) (none, [])).2

/-- Embeds reduce (algorithm_5.py lines 196-203) specialised to union, as used
by algo1: an empty input yields the empty list. -/
def reduceUnion (l : List (List α)) : List α :=
  match l with
  | [] => []
  | x :: xs => xs.foldl union x

/-- Embeds cut (algorithm_5.py lines 276-280): sorted set intersection. -/
def cut (a b : ComponentSet) : ComponentSet :=
  pySort (a.dedup.filter (fun x => decide (x ∈ b)))

/-- Embeds symm (algorithm_5.py lines 283-287): sorted symmetric difference. -/
def symm (a b : ComponentSet) : ComponentSet :=
  pySort (a.dedup.filter (fun x => decide (x ∉ b)) ++ b.dedup.filter (fun x => decide (x ∉ a)))

/-- Embeds algo1 (algorithm_5.py lines 322-339) on the two arm lists that
calculate_component_set returns for the edge. -/
def algo1 (c1 c2 : List ComponentSet) : List Component :=
  let c12 := cartesian c1 c2
  let intersections := map2 cut c12
  let symmetric_differences := map2 symm c12
  let voting_map := intersections ++ symmetric_differences
  let m := argmax voting_map (fun x => countL voting_map x)
  let r := argmin m size
  reduceUnion r

/-- Modelled from the spec (section 4.4): the pool of candidate sets, one
intersection and one symmetric difference for every pair of arms. -/
def specPool (c1 c2 : List ComponentSet) : List ComponentSet :=
  map2 cut (cartesian c1 c2) ++ map2 symm (cartesian c1 c2)

/-- Modelled from the spec (section 4.4): keep exactly the pooled sets whose
occurrence count in the pool is maximal. -/
def specKeepMaxCount (pool : List ComponentSet) : List ComponentSet :=
  pool.filter (fun s => decide (∀ t ∈ pool, countL pool t ≤ countL pool s))

/-- Modelled from the spec (section 4.4): among the kept sets, keep exactly
those of minimal cardinality. -/
def specKeepMinSize (kept : List ComponentSet) : List ComponentSet :=
  kept.filter (fun s => decide (∀ t ∈ kept, size s ≤ size t))

/-- Modelled from the spec (section 4.4): the reference per-edge verdict, the
concatenation of all kept sets. -/
def specVerdict (c1 c2 : List ComponentSet) : List Component :=
  (specKeepMinSize (specKeepMaxCount (specPool c1 c2))).flatten

/-- Running maximum of f over l with integer floor m. -/
def foldMaxI (f : α → Nat) (l : List α) (m : Int) : Int :=
  l.foldl (fun a x => max a (f x)) m

/-- Running minimum of f over l with optional ceiling o (none is infinity). -/
def foldMinO (f : α → Nat) (l : List α) (o : Option Nat) : Option Nat :=
  l.foldl (fun a x =>
    match a with
    | none => some (f x)
    | some m => some (min m (f x))) o

theorem foldMaxI_le (f : α → Nat) (l : List α) (m : Int) : m ≤ foldMaxI f l m := by
  induction l generalizing m with
  | nil => simp [foldMaxI]
  | cons x xs ih =>
      simp only [foldMaxI, List.foldl_cons] at *
      exact le_trans (le_max_left m (f x)) (ih (max m (f x)))

theorem foldMaxI_mem_le (f : α → Nat) (l : List α) (m : Int) :
    ∀ y ∈ l, (f y : Int) ≤ foldMaxI f l m := by
  induction l generalizing m with
  | nil => intro y hy; simp at hy
  | cons x xs ih =>
      intro y hy
      rcases List.mem_cons.mp hy with h | h
      · subst h
        exact le_trans (le_max_right m (f y)) (foldMaxI_le f xs (max m (f y)))
      · exact ih (max m (f x)) y h

theorem foldMaxI_cons (f : α → Nat) (x : α) (xs : List α) (m : Int) :
    foldMaxI f (x :: xs) m = foldMaxI f xs (max m (f x)) := rfl

theorem foldMaxI_cases (f : α → Nat) (l : List α) (m : Int) :
    foldMaxI f l m = m ∨ ∃ y ∈ l, foldMaxI f l m = (f y : Int) := by
  induction l generalizing m with
  | nil => exact Or.inl rfl
  | cons x xs ih =>
      rw [foldMaxI_cons]
      rcases ih (max m (f x)) with h | ⟨y, hy, hEq⟩
      · rcases le_total m (f x) with hle | hle
        · exact Or.inr ⟨x, List.mem_cons_self x xs, by rw [h, max_eq_right hle]⟩
        · exact Or.inl (by rw [h, max_eq_left hle])
      · exact Or.inr ⟨y, List.mem_cons_of_mem x hy, hEq⟩

theorem argmax_foldl_snd (f : α → Nat) (l : List α) (m : Int) (acc : List α) :
    (l.foldl (argmaxStep f) (m, acc)).2 =
      (if foldMaxI f l m = m then acc else [])
        ++ l.filter (fun x => decide ((f x : Int) = foldMaxI f l m)) := by
  induction l generalizing m acc with
  | nil => simp [foldMaxI]
  | cons x xs ih =>
      rw [List.foldl_cons, foldMaxI_cons]
      by_cases hgt : ((f x : Int) > m)
      · have hstep : argmaxStep f (m, acc) x = ((f x : Int), [x]) := by
          simp [argmaxStep, hgt]
        have hmax : max m ((f x : Int)) = (f x : Int) := max_eq_right (le_of_lt hgt)
        rw [hstep, ih, hmax]
        have hne : foldMaxI f xs (f x) ≠ m := by
          intro hc
          have := foldMaxI_le f xs ((f x : Int))
          omega
        rw [if_neg hne, List.filter_cons]
        by_cases hx : foldMaxI f xs ((f x : Int)) = ((f x : Int))
        · rw [if_pos hx]
          simp [hx]
        · have : ¬ ((f x : Int) = foldMaxI f xs ((f x : Int))) := fun hc => hx hc.symm
          rw [if_neg hx]
          simp [this]
      · have hmax : max m ((f x : Int)) = m := max_eq_left (not_lt.mp hgt)
        rw [hmax, List.filter_cons]
        by_cases heq : ((f x : Int) = m)
        · have hstep : argmaxStep f (m, acc) x = (m, acc ++ [x]) := by
            simp [argmaxStep, hgt, heq]
          rw [hstep, ih]
          by_cases hfin : foldMaxI f xs m = m
          · have hxkeep : ((f x : Int) = foldMaxI f xs m) := by rw [hfin, heq]
            rw [if_pos hfin, if_pos hfin]
            simp [hxkeep, List.append_assoc]
          · have hxdrop : ¬ ((f x : Int) = foldMaxI f xs m) := by
              intro hc; exact hfin (by rw [← hc, heq])
            rw [if_neg hfin, if_neg hfin]
            simp [hxdrop]
        · have hlt : ((f x : Int) < m) := lt_of_le_of_ne (not_lt.mp hgt) heq
          have hstep : argmaxStep f (m, acc) x = (m, acc) := by
            simp only [argmaxStep]
            rw [if_neg (by exact not_lt.mpr (le_of_lt hlt)), if_neg heq]
          rw [hstep, ih]
          have hxdrop : ¬ ((f x : Int) = foldMaxI f xs m) := by
            intro hc
            have := foldMaxI_le f xs m
            omega
          simp [hxdrop]

/-- The argmax loop keeps exactly the elements whose f value is maximal. -/
theorem argmax_eq_filter [DecidableEq α] (f : α → Nat) (l : List α) :
    argmax l f = l.filter (fun x => decide (∀ y ∈ l, f y ≤ f x)) := by
  unfold argmax
  rw [argmax_foldl_snd]
  have hne : ∀ x ∈ l, foldMaxI f l (-1) ≠ (-1 : Int) := by
    intro x hx hc
    have := foldMaxI_mem_le f l (-1) x hx
    omega
  rcases Decidable.em (l = []) with hnil | hnotnil
  · subst hnil; simp
  · have : foldMaxI f l (-1) = (-1 : Int) → False := by
      rcases List.exists_mem_of_ne_nil l hnotnil with ⟨x, hx⟩
      exact fun hc => hne x hx hc
    rw [if_neg this]
    simp only [List.nil_append]
    apply List.filter_congr
    intro x hx
    rcases foldMaxI_cases f l (-1) with hc | ⟨y, hy, hEq⟩
    · exact absurd hc (hne x hx)
    · simp only [decide_eq_decide]
      constructor
      · intro hfx z hz
        have h1 := foldMaxI_mem_le f l (-1) z hz
        rw [← hfx] at h1
        exact_mod_cast h1
      · intro hall
        have h1 := foldMaxI_mem_le f l (-1) x hx
        have h2 : (f y : Int) ≤ (f x : Int) := by exact_mod_cast hall y hy
        rw [hEq] at h1 ⊢
        omega

theorem foldMinO_some (f : α → Nat) (l : List α) (m : Nat) :
    ∃ k, foldMinO f l (some m) = some k ∧ k ≤ m := by
  induction l generalizing m with
  | nil => exact ⟨m, rfl, le_refl m⟩
  | cons x xs ih =>
      rcases ih (min m (f x)) with ⟨k, hk, hle⟩
      exact ⟨k, hk, le_trans hle (min_le_left m (f x))⟩

theorem foldMinO_cons (f : α → Nat) (x : α) (xs : List α) (o : Option Nat) :
    foldMinO f (x :: xs) o =
      foldMinO f xs (match o with | none => some (f x) | some m => some (min m (f x))) := rfl

theorem foldMinO_cons_none (f : α → Nat) (x : α) (xs : List α) :
    foldMinO f (x :: xs) none = foldMinO f xs (some (f x)) := rfl

theorem foldMinO_cons_some (f : α → Nat) (x : α) (xs : List α) (m : Nat) :
    foldMinO f (x :: xs) (some m) = foldMinO f xs (some (min m (f x))) := rfl

theorem foldMinO_mem_le (f : α → Nat) (l : List α) (o : Option Nat) :
    ∀ y ∈ l, ∀ k, foldMinO f l o = some k → k ≤ f y := by
  induction l generalizing o with
  | nil => intro y hy; simp at hy
  | cons x xs ih =>
      intro y hy k hk
      rw [foldMinO_cons] at hk
      rcases List.mem_cons.mp hy with h | h
      · subst h
        match o with
        | none =>
            rcases foldMinO_some f xs (f y) with ⟨k', hk', hle⟩
            rw [hk'] at hk
            cases hk
            exact hle
        | some m =>
            rcases foldMinO_some f xs (min m (f y)) with ⟨k', hk', hle⟩
            rw [hk'] at hk
            cases hk
            exact le_trans hle (min_le_right m (f y))
      · match o with
        | none => exact ih (some (f x)) y h k hk
        | some m => exact ih (some (min m (f x))) y h k hk

theorem foldMinO_cases (f : α → Nat) (l : List α) (o : Option Nat) :
    foldMinO f l o = o ∨ ∃ y ∈ l, foldMinO f l o = some (f y) := by
  induction l generalizing o with
  | nil => exact Or.inl rfl
  | cons x xs ih =>
      rw [foldMinO_cons]
      match o with
      | none =>
          rcases ih (some (f x)) with h | ⟨y, hy, hEq⟩
          · exact Or.inr ⟨x, List.mem_cons_self x xs, h⟩
          · exact Or.inr ⟨y, List.mem_cons_of_mem x hy, hEq⟩
      | some m =>
          rcases ih (some (min m (f x))) with h | ⟨y, hy, hEq⟩
          · rcases le_total m (f x) with hle | hle
            · exact Or.inl (by rw [h, min_eq_left hle])
            · exact Or.inr ⟨x, List.mem_cons_self x xs, by rw [h, min_eq_right hle]⟩
          · exact Or.inr ⟨y, List.mem_cons_of_mem x hy, hEq⟩

theorem argmin_foldl_snd (f : α → Nat) (l : List α) (o : Option Nat) (acc : List α) :
    (l.foldl (argminStep f) (o, acc)).2 =
      (if foldMinO f l o = o then acc else [])
        ++ l.filter (fun x => decide (some (f x) = foldMinO f l o)) := by
  induction l generalizing o acc with
  | nil => simp [foldMinO]
  | cons x xs ih =>
      match o with
      | none =>
          rw [List.foldl_cons, foldMinO_cons_none, List.filter_cons]
          have hstep : argminStep f (none, acc) x = (some (f x), [x]) := rfl
          rw [hstep, ih]
          have hne : foldMinO f xs (some (f x)) ≠ none := by
            rcases foldMinO_some f xs (f x) with ⟨k, hk, _⟩
            rw [hk]; exact fun hc => Option.noConfusion hc
          rw [if_neg hne]
          by_cases hx : foldMinO f xs (some (f x)) = some (f x)
          · rw [if_pos hx]
            simp [hx]
          · have : ¬ (some (f x) = foldMinO f xs (some (f x))) := fun hc => hx hc.symm
            rw [if_neg hx]
            simp [this]
      | some m =>
          rw [List.foldl_cons, foldMinO_cons_some, List.filter_cons]
          by_cases hlt : f x < m
          · have hstep : argminStep f (some m, acc) x = (some (f x), [x]) := by
              simp [argminStep, hlt]
            have hmin : min m (f x) = f x := min_eq_right (le_of_lt hlt)
            rw [hstep, ih, hmin]
            have hne : foldMinO f xs (some (f x)) ≠ some m := by
              rcases foldMinO_some f xs (f x) with ⟨k, hk, hle⟩
              rw [hk]
              intro hc
              cases hc
              omega
            rw [if_neg hne]
            by_cases hx : foldMinO f xs (some (f x)) = some (f x)
            · rw [if_pos hx]
              simp [hx]
            · have : ¬ (some (f x) = foldMinO f xs (some (f x))) := fun hc => hx hc.symm
              rw [if_neg hx]
              simp [this]
          · by_cases heq : f x = m
            · have hstep : argminStep f (some m, acc) x = (some m, acc ++ [x]) := by
                simp [argminStep, hlt, heq]
              have hmin : min m (f x) = m := min_eq_left (by omega)
              rw [hstep, ih, hmin]
              by_cases hfin : foldMinO f xs (some m) = some m
              · have hxkeep : (some (f x) = foldMinO f xs (some m)) := by rw [hfin, heq]
                rw [if_pos hfin, if_pos hfin]
                simp [hxkeep, List.append_assoc]
              · have hxdrop : ¬ (some (f x) = foldMinO f xs (some m)) := by
                  intro hc; exact hfin (by rw [← hc, heq])
                rw [if_neg hfin, if_neg hfin]
                simp [hxdrop]
            · have hgt : m < f x := by omega
              have hstep : argminStep f (some m, acc) x = (some m, acc) := by
                simp only [argminStep]
                rw [if_neg (by omega), if_neg heq]
              have hmin : min m (f x) = m := min_eq_left (by omega)
              rw [hstep, ih, hmin]
              have hxdrop : ¬ (some (f x) = foldMinO f xs (some m)) := by
                intro hc
                rcases foldMinO_some f xs m with ⟨k, hk, hle⟩
                rw [hk] at hc
                cases hc
                omega
              simp [hxdrop]

/-- The argmin loop keeps exactly the elements whose f value is minimal. -/
theorem argmin_eq_filter [DecidableEq α] (f : α → Nat) (l : List α) :
    argmin l f = l.filter (fun x => decide (∀ y ∈ l, f x ≤ f y)) := by
  unfold argmin
  rw [argmin_foldl_snd]
  rcases Decidable.em (l = []) with hnil | hnotnil
  · subst hnil; simp
  · have hne : foldMinO f l none ≠ none := by
      rcases List.exists_mem_of_ne_nil l hnotnil with ⟨x, hx⟩
      rcases foldMinO_cases f l none with hc | ⟨y, hy, hEq⟩
      · rcases l with _ | ⟨a, as⟩
        · exact absurd rfl hnotnil
        · rw [foldMinO_cons] at hc
          rcases foldMinO_some f as (f a) with ⟨k, hk, _⟩
          rw [hk] at hc
          exact absurd hc (fun hcc => Option.noConfusion hcc)
      · rw [hEq]; exact fun hc => Option.noConfusion hc
    rw [if_neg hne]
    simp only [List.nil_append]
    apply List.filter_congr
    intro x hx
    rcases foldMinO_cases f l none with hc | ⟨y, hy, hEq⟩
    · exact absurd hc hne
    · simp only [decide_eq_decide]
      constructor
      · intro hfx z hz
        have h1 := foldMinO_mem_le f l none z hz (f x) hfx.symm
        exact h1
      · intro hall
        rw [hEq]
        have h1 := foldMinO_mem_le f l none x hx (f y) hEq
        have h2 := hall y hy
        have : f y = f x := le_antisymm h1 h2
        rw [this]

/-- The reduce-union fold is list flattening. -/
theorem reduceUnion_eq_flatten (l : List (List α)) : reduceUnion l = l.flatten := by
  have haux : ∀ (xs : List (List α)) (a : List α), xs.foldl union a = a ++ xs.flatten := by
    intro xs
    induction xs with
    | nil => intro a; simp
    | cons y ys ih =>
        intro a
        rw [List.foldl_cons, List.flatten_cons]
        show List.foldl union (union a y) ys = a ++ (y ++ ys.flatten)
        rw [ih (union a y)]
        simp [union]
  match l with
  | [] => rfl
  | x :: xs =>
      show xs.foldl union x = (x :: xs).flatten
      rw [haux xs x, List.flatten_cons]

/-- Sorted lists produced by pySort. -/
theorem pySort_sorted (l : List Component) : List.Sorted (fun a b => a ≤ b) (pySort l) :=
  List.sorted_insertionSort _ l

/-- pySort permutes its input. -/
theorem pySort_perm (l : List Component) : (pySort l).Perm l :=
  List.perm_insertionSort _ l

/-- Claim C1: for every candidate edge handled by the full-full voting path
(and the cases normalized to it), the per-edge verdict computed by algo1 on
the two arm lists equals the reference procedure of the spec: pool the
intersection and symmetric difference of every cartesian pair of arms, keep
the pooled sets of maximal occurrence count, among those keep the sets of
minimal cardinality, and concatenate all kept sets. -/
theorem claim1_algo1_matches_reference (c1 c2 : List ComponentSet) :
    algo1 c1 c2 = specVerdict c1 c2 := by
  simp only [algo1, specVerdict, specKeepMinSize, specKeepMaxCount, specPool]
  rw [argmax_eq_filter, argmin_eq_filter, reduceUnion_eq_flatten]

mutual

/-- Embeds the Node dataclass of main_find_highlights.py after Node.from_dict:
a leaf carries the singleton tuple of its leaf index as name, an inner node
the tuple of the sorted leaf indices below it; length is the branch length. -/
inductive PNode where
  | mk (name : List Nat) (length : Rat) (children : PNodes)

/-- Child list of a PNode. -/
inductive PNodes where
  | nil
  | cons (hd : PNode) (tl : PNodes)

end

def PNode.name : PNode → List Nat
  | .mk nm _ _ => nm

def PNode.len : PNode → Rat
  | .mk _ l _ => l

def PNode.children : PNode → PNodes
  | .mk _ _ cs => cs

def PNodes.toList : PNodes → List PNode
  | .nil => []
  | .cons c cs => c :: PNodes.toList cs

mutual

/-- Embeds calculate_component_set_tree (algorithm_5.py lines 20-32): a node
of nonzero length contributes the singleton of its own name, a childless node
of zero length the singleton of its name, otherwise the sorted concatenation
of the sorted child component sets. -/
def calculate_component_set_tree : PNode → ComponentSet
  | .mk nm l cs =>
      if l ≠ 0 then [nm]
      else
        match cs with
        | .nil => [nm]
        | .cons c rest => pySort (ccstChildren (.cons c rest))

/-- The loop body of calculate_component_set_tree: the concatenation of the
sorted per-child component sets. -/
def ccstChildren : PNodes → ComponentSet
  | .nil => []
  | .cons c cs => pySort (calculate_component_set_tree c) ++ ccstChildren cs

end

/-- Concatenation of the raw child component sets, as the spec words the
recursive descendant-set computation. -/
def ccstChildrenFlat : PNodes → ComponentSet
  | .nil => []
  | .cons c cs => calculate_component_set_tree c ++ ccstChildrenFlat cs

theorem ccstChildren_perm_flat : ∀ cs : PNodes, (ccstChildren cs).Perm (ccstChildrenFlat cs)
  | .nil => List.Perm.refl _
  | .cons _ rest => List.Perm.append (pySort_perm _) (ccstChildren_perm_flat rest)

theorem ccst_mk (nm : List Nat) (l : Rat) (cs : PNodes) :
    calculate_component_set_tree (.mk nm l cs) =
      if l ≠ 0 then [nm]
      else
        match cs with
        | .nil => [nm]
        | .cons c rest => pySort (ccstChildren (.cons c rest)) := by
  rw [calculate_component_set_tree.eq_def]

/-- Claim C5: calculate_component_set_tree returns the singleton of the node
name when the branch length is nonzero (leaf or not), the singleton of the
leaf name when the node is a childless zero-length node, and otherwise a
sorted permutation of the concatenated component sets of the children. -/
theorem claim5_component_set_characterisation (n : PNode) :
    List.Sorted (fun a b => a ≤ b) (calculate_component_set_tree n) ∧
      (calculate_component_set_tree n).Perm
        (if n.len ≠ 0 then [n.name]
         else match n.children with
           | .nil => [n.name]
           | _ => ccstChildrenFlat n.children) := by
  match n with
  | .mk nm l cs =>
      constructor
      · show List.Sorted _ (calculate_component_set_tree (.mk nm l cs))
        rw [ccst_mk]
        by_cases hl : l ≠ 0
        · rw [if_pos hl]; exact List.sorted_singleton nm
        · rw [if_neg hl]
          match cs with
          | .nil => exact List.sorted_singleton nm
          | .cons c rest => exact pySort_sorted _
      · show (calculate_component_set_tree (.mk nm l cs)).Perm _
        rw [ccst_mk]
        simp only [PNode.len, PNode.name, PNode.children]
        by_cases hl : l ≠ 0
        · rw [if_pos hl, if_pos hl]
        · rw [if_neg hl, if_neg hl]
          match cs with
          | .nil => exact List.Perm.refl _
          | .cons c rest => exact (pySort_perm _).trans (ccstChildren_perm_flat _)

def PNodes.isNil : PNodes → Bool
  | .nil => true
  | .cons _ _ => false

/-- Embeds get_type (algorithm_5.py lines 61-71): the edge classification by
the own and child branch lengths. -/
def get_type (n : PNode) : String :=
  let cs := n.children.toList
  if cs.length = 0 then "leaf"
  else if (∀ c ∈ cs, PNode.len c = 0) ∧ 0 < n.len then "full"
  else if (∃ c ∈ cs, PNode.len c = 0) ∧ 0 < n.len then "partial"
  else if (∀ c ∈ cs, 0 < PNode.len c) ∧ n.len = 0 then "anti"
  else "none"

/-- Keys of the ancestor_edges dict of algorithm_5.py: node names (line 96)
and whole arms (line 100) go into the same Python dict. -/
inductive AncKey where
  | nodeName (nm : List Nat)
  | armKey (a : ComponentSet)
deriving DecidableEq

/-- A Python dict as an association list; updates append on the right. -/
def dictLookup [DecidableEq κ] (d : List (κ × ν)) (k : κ) : Option ν :=
  (d.reverse.find? (fun p => decide (p.1 = k))).map (fun p => p.2)

/-- Embeds the FunctionalTree class (algorithm_5.py lines 35-58). -/
structure FunctionalTree where
  all_sedges : List PNode
  edge_types : List (List Nat × String)
  ancestor_edges : List (AncKey × PNode)
  arms : List (List Nat × List ComponentSet)

/-- Embeds FunctionalTree.__add__ (algorithm_5.py lines 43-58): s-edge lists
concatenate and the dicts of the right operand override the left. -/
def FunctionalTree.add (a b : FunctionalTree) : FunctionalTree :=
  ⟨a.all_sedges ++ b.all_sedges, a.edge_types ++ b.edge_types,
    a.ancestor_edges ++ b.ancestor_edges, a.arms ++ b.arms⟩

/-- The per-node part of traverse (algorithm_5.py lines 76-102): classify the
node, admit it to the s-edge list when full or partial, record the arms and
the ancestor entries for child names and arms. -/
def traverseBase (n : PNode) : FunctionalTree :=
  let ty := get_type n
  let edge_arms := n.children.toList.map calculate_component_set_tree
  { all_sedges := if ty = "full" ∨ ty = "partial" then [n] else []
    edge_types := [(n.name, ty)]
    ancestor_edges :=
      n.children.toList.map (fun c => (AncKey.nodeName c.name, n))
        ++ edge_arms.map (fun a => (AncKey.armKey a, n))
    arms := [(n.name, edge_arms)] }

mutual

/-- Embeds traverse (algorithm_5.py lines 74-112). -/
def traverse : PNode → FunctionalTree
  | .mk nm l cs => traverseFold (traverseBase (.mk nm l cs)) cs

/-- The child loop of traverse (algorithm_5.py lines 104-106). -/
def traverseFold : FunctionalTree → PNodes → FunctionalTree
  | t, .nil => t
  | t, .cons c cs => traverseFold (t.add (traverse c)) cs

end

/-- Embeds merge_sedges (algorithm_5.py lines 498-508): a dict keyed by node
name, filled from both s-edge lists, read back as its values. -/
def upsert (d : List (List Nat × PNode)) (e : PNode) : List (List Nat × PNode) :=
  if d.any (fun p => decide (p.1 = e.name)) then
    d.map (fun p => if p.1 = e.name then (p.1, e) else p)
  else d ++ [(e.name, e)]

def merge_sedges (one two : List PNode) : List PNode :=
  ((one ++ two).foldl upsert []).map (fun p => p.2)

/-- Embeds the case dispatch of algorithm_5_for_sedge (algorithm_5.py lines
452-495) on the two looked-up edge types; the result names the selected case
and none models the trailing raise Exception branch. -/
def algorithm_5_for_sedge_case (ty1 ty2 : String) : Option String :=
  if ty1 = "full" ∧ ty2 = "full" then some "case_full_full"
  else if ty1 = "full" ∧ ty2 = "partial" then some "case_full_full"
  else if ty1 = "partial" ∧ ty2 = "full" then some "case_full_full_swapped"
  else if ty1 = "partial" ∧ ty2 = "partial" then some "case_partial_partial"
  else if ty1 = "partial" ∧ ty2 = "none" then some "case_partial_none"
  else if ty1 = "none" ∧ ty2 = "partial" then some "case_partial_none_swapped"
  else if ty1 = "full" then some "case_full_full"
  else if ty2 = "full" then some "case_full_full"
  else none

theorem traverseBase_sedge_types (n : PNode) :
    ∀ e ∈ (traverseBase n).all_sedges, get_type e = "full" ∨ get_type e = "partial" := by
  intro e he
  simp only [traverseBase] at he
  by_cases h : get_type n = "full" ∨ get_type n = "partial"
  · rw [if_pos h] at he
    rcases List.mem_singleton.mp he with rfl
    exact h
  · rw [if_neg h] at he
    simp at he

mutual

theorem traverse_sedge_types :
    ∀ n : PNode, ∀ e ∈ (traverse n).all_sedges, get_type e = "full" ∨ get_type e = "partial"
  | .mk nm l cs => by
      show ∀ e ∈ (traverseFold (traverseBase (.mk nm l cs)) cs).all_sedges, _
      exact traverseFold_sedge_types (traverseBase (.mk nm l cs)) cs
        (traverseBase_sedge_types (.mk nm l cs))

theorem traverseFold_sedge_types :
    ∀ (t : FunctionalTree) (cs : PNodes),
      (∀ e ∈ t.all_sedges, get_type e = "full" ∨ get_type e = "partial") →
      ∀ e ∈ (traverseFold t cs).all_sedges, get_type e = "full" ∨ get_type e = "partial"
  | t, .nil => fun h => h
  | t, .cons c cs => fun h =>
      traverseFold_sedge_types (t.add (traverse c)) cs (by
        intro e he
        rcases List.mem_append.mp he with h1 | h2
        · exact h e h1
        · exact traverse_sedge_types c e h2)

end

theorem upsert_values (d : List (List Nat × PNode)) (e : PNode) :
    ∀ v ∈ (upsert d e).map (fun p => p.2), v ∈ d.map (fun p => p.2) ∨ v = e := by
  intro v hv
  simp only [upsert] at hv
  by_cases h : d.any (fun p => decide (p.1 = e.name))
  · rw [if_pos h] at hv
    rw [List.map_map, List.mem_map] at hv
    rcases hv with ⟨p, hp, hpe⟩
    by_cases hname : p.1 = e.name
    · right
      simp only [Function.comp, if_pos hname] at hpe
      exact hpe.symm
    · left
      simp only [Function.comp, if_neg hname] at hpe
      exact hpe ▸ List.mem_map_of_mem (fun p => p.2) hp
  · rw [if_neg h] at hv
    rw [List.map_append, List.mem_append] at hv
    rcases hv with h1 | h2
    · exact Or.inl h1
    · simp at h2
      exact Or.inr h2

theorem foldl_upsert_values (l : List PNode) (d : List (List Nat × PNode)) :
    ∀ v ∈ (l.foldl upsert d).map (fun p => p.2),
      v ∈ d.map (fun p => p.2) ∨ v ∈ l := by
  induction l generalizing d with
  | nil => intro v hv; exact Or.inl hv
  | cons x xs ih =>
      intro v hv
      rw [List.foldl_cons] at hv
      rcases ih (upsert d x) v hv with h1 | h2
      · rcases upsert_values d x v h1 with ha | hb
        · exact Or.inl ha
        · exact Or.inr (hb ▸ List.mem_cons_self x xs)
      · exact Or.inr (List.mem_cons_of_mem x h2)

/-- Every candidate produced by merge_sedges comes from one of the two s-edge
lists. -/
theorem merge_sedges_mem (one two : List PNode) :
    ∀ e ∈ merge_sedges one two, e ∈ one ∨ e ∈ two := by
  intro e he
  rcases foldl_upsert_values (one ++ two) [] e he with h1 | h2
  · simp at h1
  · exact List.mem_append.mp h2

theorem get_type_cases (n : PNode) :
    get_type n = "leaf" ∨ get_type n = "full" ∨ get_type n = "partial" ∨
      get_type n = "anti" ∨ get_type n = "none" := by
  simp only [get_type]
  split_ifs <;> simp

theorem get_type_full_pos (n : PNode) (h : get_type n = "full") : 0 < n.len := by
  simp only [get_type] at h
  split_ifs at h with h1 h2 h3 h4 <;> first | exact h2.2 | simp_all

theorem get_type_partial_pos (n : PNode) (h : get_type n = "partial") : 0 < n.len := by
  simp only [get_type] at h
  split_ifs at h with h1 h2 h3 h4 <;> first | exact h3.2 | simp_all

theorem get_type_anti_len (n : PNode) (h : get_type n = "anti") : n.len = 0 := by
  simp only [get_type] at h
  split_ifs at h with h1 h2 h3 h4 <;> first | exact h4.2 | simp_all

theorem get_type_leaf_children (n : PNode) (h : get_type n = "leaf") :
    n.children.isNil = true := by
  simp only [get_type] at h
  split_ifs at h with h1 <;> try simp_all
  match n with
  | .mk nm l cs =>
      match cs with
      | .nil => rfl
      | .cons c rest => simp [PNode.children, PNodes.toList] at h1

theorem dispatch_covered (ty1 ty2 : String)
    (h1 : ty1 = "full" ∨ ty1 = "partial" ∨ ty1 = "none")
    (h2 : ty2 = "full" ∨ ty2 = "partial" ∨ ty2 = "none")
    (hs : ty1 = "full" ∨ ty1 = "partial" ∨ ty2 = "full" ∨ ty2 = "partial") :
    (algorithm_5_for_sedge_case ty1 ty2).isSome := by
  rcases h1 with rfl | rfl | rfl <;> rcases h2 with rfl | rfl | rfl <;>
    first
    | decide
    | (rcases hs with h | h | h | h <;> exact absurd h (by decide))

/-- Claim C7: every candidate edge of the merged s-edge list is classified
full or partial in the tree that contributed it, and for a candidate edge
whose two views have equal branch length and children on both sides (the
invariant of the interpolated tree pair) the case dispatch of
algorithm_5_for_sedge selects one of the documented cases, so the trailing
We-forgot-one-case exception branch is not reached. -/
theorem claim7_dispatch_total (r1 r2 n1 n2 : PNode)
    (hlen : n1.len = n2.len)
    (hc1 : n1.children.isNil = false) (hc2 : n2.children.isNil = false)
    (hs : get_type n1 = "full" ∨ get_type n1 = "partial" ∨
      get_type n2 = "full" ∨ get_type n2 = "partial") :
    (∀ e ∈ merge_sedges (traverse r1).all_sedges (traverse r2).all_sedges,
        get_type e = "full" ∨ get_type e = "partial") ∧
      (algorithm_5_for_sedge_case (get_type n1) (get_type n2)).isSome := by
  constructor
  · intro e he
    rcases merge_sedges_mem _ _ e he with h | h
    · exact traverse_sedge_types r1 e h
    · exact traverse_sedge_types r2 e h
  · have hpos : 0 < n1.len := by
      rcases hs with h | h | h | h
      · exact get_type_full_pos n1 h
      · exact get_type_partial_pos n1 h
      · exact hlen ▸ get_type_full_pos n2 h
      · exact hlen ▸ get_type_partial_pos n2 h
    have hne1 : get_type n1 ≠ "leaf" := by
      intro h
      rw [get_type_leaf_children n1 h] at hc1
      exact Bool.noConfusion hc1
    have hne2 : get_type n2 ≠ "leaf" := by
      intro h
      rw [get_type_leaf_children n2 h] at hc2
      exact Bool.noConfusion hc2
    have hna1 : get_type n1 ≠ "anti" := by
      intro h
      have := get_type_anti_len n1 h
      rw [this] at hpos
      exact lt_irrefl 0 hpos
    have hna2 : get_type n2 ≠ "anti" := by
      intro h
      have := get_type_anti_len n2 h
      rw [hlen, this] at hpos
      exact lt_irrefl 0 hpos
    have h1 : get_type n1 = "full" ∨ get_type n1 = "partial" ∨ get_type n1 = "none" := by
      rcases get_type_cases n1 with h | h | h | h | h
      · exact absurd h hne1
      · exact Or.inl h
      · exact Or.inr (Or.inl h)
      · exact absurd h hna1
      · exact Or.inr (Or.inr h)
    have h2 : get_type n2 = "full" ∨ get_type n2 = "partial" ∨ get_type n2 = "none" := by
      rcases get_type_cases n2 with h | h | h | h | h
      · exact absurd h hne2
      · exact Or.inl h
      · exact Or.inr (Or.inl h)
      · exact absurd h hna2
      · exact Or.inr (Or.inr h)
    exact dispatch_covered _ _ h1 h2 hs

/-- A two-leaf cherry of unit length over zero-length leaves: a full edge. -/
def fullNode : PNode :=
  .mk [0, 1] 1 (.cons (.mk [0] 0 .nil) (.cons (.mk [1] 0 .nil) .nil))

/-- Witness for claim C7 at a concrete candidate pair. -/
theorem claim7_dispatch_total_witness :
    (∀ e ∈ merge_sedges (traverse fullNode).all_sedges (traverse fullNode).all_sedges,
        get_type e = "full" ∨ get_type e = "partial") ∧
      (algorithm_5_for_sedge_case (get_type fullNode) (get_type fullNode)).isSome :=
  claim7_dispatch_total fullNode fullNode fullNode fullNode (by decide) (by decide)
    (by decide) (by decide)

/-- Embeds calculate_component_set (algorithm_5.py lines 169-170); a missing
key raises KeyError, modelled as none. -/
def calculate_component_set (t : FunctionalTree) (sedge : PNode) : Option (List ComponentSet) :=
  dictLookup t.arms sedge.name

/-- Embeds get_ancestor_edge (algorithm_5.py lines 252-257); the lookup key
tuple(c) is a component, so it can only hit the child-name entries, and a
miss raises KeyError, modelled as none. -/
def get_ancestor_edge (t : FunctionalTree) (c : Component) : Option PNode :=
  dictLookup t.ancestor_edges (AncKey.nodeName c)

/-- Embeds the edge-type dict access of is_full_s_edge, is_partial_s_edge,
is_anti_s_edge and is_none_edge (algorithm_5.py lines 260-273). -/
def edge_type_of (t : FunctionalTree) (e : PNode) : Option String :=
  dictLookup t.edge_types e.name

/-- Embeds algo5_partial_partial_cond (algorithm_5.py lines 303-316); every
lookup failure propagates. -/
def algo5_cond_pp (t1 t2 : FunctionalTree) (c : Component) : Option Bool := do
  let a1 ← get_ancestor_edge t1 c
  let a2 ← get_ancestor_edge t2 c
  let ty1 ← edge_type_of t1 a1
  let ty2 ← edge_type_of t2 a2
  pure (decide ((ty1 = "partial" ∧ ty2 = "anti") ∨ (ty1 = "anti" ∧ ty2 = "partial")))

/-- The inner loop of filter_components_from_arms (algorithm_5.py lines
294-297): filter one component set by a condition that may raise. -/
def filterComponentSetM (cond : Component → Option Bool) : ComponentSet → Option ComponentSet
  | [] => some []
  | c :: rest => do
      let b ← cond c
      let r ← filterComponentSetM cond rest
      pure (if b then c :: r else r)

/-- Embeds filter_components_from_arms (algorithm_5.py lines 290-300). -/
def filter_components_from_arms (cond : Component → Option Bool) :
    List ComponentSet → Option (List ComponentSet)
  | [] => some []
  | cs :: rest => do
      let fcs ← filterComponentSetM cond cs
      let frest ← filter_components_from_arms cond rest
      pure (if fcs.isEmpty then frest else fcs :: frest)

/-- Embeds remove_last_component_if_longer_than_one (algorithm_5.py lines
162-166). -/
def remove_last_component_if_longer_than_one (cs : ComponentSet) : ComponentSet :=
  if cs.length ≠ 1 then cs.dropLast else cs

/-- Embeds case_partial_partial (algorithm_5.py lines 350-393); any KeyError
raised by the condition or the arm lookups propagates out as none, exactly
as the Python exception escapes the function, which has no handler. -/
def casePartialPair (t1 t2 : FunctionalTree) (sedge : PNode) : Option (List Component) := do
  let c1 ← calculate_component_set t1 sedge
  let c2 ← calculate_component_set t2 sedge
  let cf1 ← filter_components_from_arms (algo5_cond_pp t1 t2) c1
  let cf2 ← filter_components_from_arms (algo5_cond_pp t2 t1) c2
  let cff1 := cf1.filter (fun x => decide (x.length ≠ 0))
  let cff2 := cf2.filter (fun x => decide (x.length ≠ 0))
  let c12 := cartesian cff1 cff2
  let intersections := map2 cut c12
  let symmetric_differences := map2 symm c12
  let voting_map := intersections ++ symmetric_differences
  let voting_map_filtered := voting_map.filter (fun x => decide (x ≠ []))
  let m := argmax voting_map_filtered (fun x => countL voting_map_filtered x)
  let m2 := argmin m size
  let c := map1 remove_last_component_if_longer_than_one m2
  pure (reduceUnion c)

/-- First counterexample tree: cherries 01 and 23 under a zero-length root. -/
def cxTree1 : PNode :=
  .mk [0, 1, 2, 3] 0
    (.cons (.mk [0, 1] 1 (.cons (.mk [0] 0 .nil) (.cons (.mk [1] 0 .nil) .nil)))
      (.cons (.mk [2, 3] 1 (.cons (.mk [2] 0 .nil) (.cons (.mk [3] 0 .nil) .nil))) .nil))

/-- Second counterexample tree: cherries 02 and 13 under a zero-length root. -/
def cxTree2 : PNode :=
  .mk [0, 1, 2, 3] 0
    (.cons (.mk [0, 2] 1 (.cons (.mk [0] 0 .nil) (.cons (.mk [2] 0 .nil) .nil)))
      (.cons (.mk [1, 3] 1 (.cons (.mk [1] 0 .nil) (.cons (.mk [3] 0 .nil) .nil))) .nil))

/-- Claim C8 evaluation: when a component from one tree has no owning edge in
the other FunctionalTree (component 01 of cxTree1 has no ancestor entry in
cxTree2), the embedded partial-partial voting path yields the error value
none, the model of the uncaught Python KeyError, not an empty or flagged
per-pair verdict some result. -/
theorem claim8_lookup_miss_escapes :
    casePartialPair (traverse cxTree1) (traverse cxTree2) cxTree1 = none ∧
      (get_ancestor_edge (traverse cxTree2) [0, 1]).isNone = true := by decide

mutual

/-- Embeds the json tree records that Treere.tree_traversal hands to
build_constree12 and build_constree34: a leaf carries its leaf index as name
(Treere.py line 287), an inner node the sorted list of its leaf indices
(line 278); lengths are branch lengths. -/
inductive JT where
  | leaf (name : Nat) (length : Rat)
  | node (name : List Nat) (length : Rat) (children : JTs)

/-- A branchset: the ordered list of subtrees below one node. -/
inductive JTs where
  | nil
  | cons (hd : JT) (tl : JTs)

end

def JTs.append : JTs → JTs → JTs
  | .nil, b => b
  | .cons c cs, b => .cons c (JTs.append cs b)

def JTs.length : JTs → Nat
  | .nil => 0
  | .cons _ cs => JTs.length cs + 1

mutual

def JT.leaves : JT → List Nat
  | .leaf i _ => [i]
  | .node _ _ cs => JTs.leavesL cs

def JTs.leavesL : JTs → List Nat
  | .nil => []
  | .cons t ts => JT.leaves t ++ JTs.leavesL ts

end

mutual

def JT.innerEntries : JT → List (List Nat × Rat)
  | .leaf _ _ => []
  | .node nm l cs => (nm, l) :: JTs.innerEntriesL cs

def JTs.innerEntriesL : JTs → List (List Nat × Rat)
  | .nil => []
  | .cons t ts => JT.innerEntries t ++ JTs.innerEntriesL ts

end

mutual

def JT.leafEntries : JT → List (Nat × Rat)
  | .leaf i l => [(i, l)]
  | .node _ _ cs => JTs.leafEntriesL cs

def JTs.leafEntriesL : JTs → List (Nat × Rat)
  | .nil => []
  | .cons t ts => JT.leafEntries t ++ JTs.leafEntriesL ts

end

/-- Embeds the consdict1 construction of compare_splitlists (Treere.py lines
361-372) as the resulting key-to-length mapping: splits shared with tree 2
receive the averaged length, splits unique to tree 1 receive 0. -/
def consdict1 (s2 : List (List Nat)) (d1 d2 : List Nat → Rat) (nm : List Nat) : Rat :=
  if nm ∈ s2 then (d1 nm + d2 nm) / 2 else 0

/-- Embeds the consdict2 deletion marks (Treere.py line 372): an inner split
absent from tree 2 is recorded as False, meaning delete on sight. -/
def consdict2_deleted (s2 : List (List Nat)) (nm : List Nat) : Bool :=
  decide (nm ∉ s2)

/-- Embeds the consdict4 construction of compare_splitlists (Treere.py lines
374-381), the mirror keyed on the splits of tree 2. -/
def consdict4 (s1 : List (List Nat)) (d1 d2 : List Nat → Rat) (nm : List Nat) : Rat :=
  if nm ∈ s1 then (d1 nm + d2 nm) / 2 else 0

/-- Embeds the consdict3 deletion marks (Treere.py line 381). -/
def consdict3_deleted (s1 : List (List Nat)) (nm : List Nat) : Bool :=
  decide (nm ∉ s1)

mutual

/-- Embeds the constree1 action of build_constree12 (Treere.py lines 417 and
434) and the constree4 action of build_constree34 (lines 482 and 499): the
topology is kept and every node length is replaced by its consdict value. -/
def rampTree (c : List Nat → Rat) : JT → JT
  | .leaf i _ => .leaf i (c [i])
  | .node nm _ cs => .node nm (c nm) (rampList c cs)

def rampList (c : List Nat → Rat) : JTs → JTs
  | .nil => .nil
  | .cons t ts => .cons (rampTree c t) (rampList c ts)

end

mutual

/-- Embeds the constree2 action of build_constree12 (Treere.py lines 419-429)
and the constree3 action of build_constree34 (lines 484-494): an inner node
whose consdict mark is False is deleted and its already-processed children
are spliced into the parent list at its position; kept nodes receive the
averaged consdict length. -/
def collapseTree (dead : List Nat → Bool) (c : List Nat → Rat) : JT → JTs
  | .leaf i _ => .cons (.leaf i (c [i])) .nil
  | .node nm _ cs =>
      if dead nm then collapseList dead c cs
      else .cons (.node nm (c nm) (collapseList dead c cs)) .nil

def collapseList (dead : List Nat → Bool) (c : List Nat → Rat) : JTs → JTs
  | .nil => .nil
  | .cons t ts => (collapseTree dead c t).append (collapseList dead c ts)

end

theorem JTs.leavesL_append : ∀ a b : JTs,
    JTs.leavesL (a.append b) = JTs.leavesL a ++ JTs.leavesL b
  | .nil, b => rfl
  | .cons t ts, b => by
      show JT.leaves t ++ JTs.leavesL (ts.append b) = (JT.leaves t ++ JTs.leavesL ts) ++ _
      rw [JTs.leavesL_append ts b, List.append_assoc]

theorem JTs.innerEntriesL_append : ∀ a b : JTs,
    JTs.innerEntriesL (a.append b) = JTs.innerEntriesL a ++ JTs.innerEntriesL b
  | .nil, b => rfl
  | .cons t ts, b => by
      show JT.innerEntries t ++ JTs.innerEntriesL (ts.append b)
        = (JT.innerEntries t ++ JTs.innerEntriesL ts) ++ JTs.innerEntriesL b
      rw [JTs.innerEntriesL_append ts b, List.append_assoc]

theorem JTs.leafEntriesL_append : ∀ a b : JTs,
    JTs.leafEntriesL (a.append b) = JTs.leafEntriesL a ++ JTs.leafEntriesL b
  | .nil, b => rfl
  | .cons t ts, b => by
      show JT.leafEntries t ++ JTs.leafEntriesL (ts.append b)
        = (JT.leafEntries t ++ JTs.leafEntriesL ts) ++ JTs.leafEntriesL b
      rw [JTs.leafEntriesL_append ts b, List.append_assoc]

theorem JTs.length_append : ∀ a b : JTs,
    JTs.length (a.append b) = JTs.length a + JTs.length b
  | .nil, b => by
      show JTs.length b = 0 + JTs.length b
      omega
  | .cons t ts, b => by
      show JTs.length (ts.append b) + 1 = (JTs.length ts + 1) + JTs.length b
      rw [JTs.length_append ts b]
      omega

mutual

theorem leaves_rampTree (c : List Nat → Rat) : ∀ t : JT, (rampTree c t).leaves = t.leaves
  | .leaf i l => rfl
  | .node nm l cs => by
      show JTs.leavesL (rampList c cs) = JTs.leavesL cs
      exact leaves_rampList c cs

theorem leaves_rampList (c : List Nat → Rat) :
    ∀ ts : JTs, JTs.leavesL (rampList c ts) = JTs.leavesL ts
  | .nil => rfl
  | .cons t ts => by
      show (rampTree c t).leaves ++ JTs.leavesL (rampList c ts) = JT.leaves t ++ JTs.leavesL ts
      rw [leaves_rampTree c t, leaves_rampList c ts]

end

mutual

theorem leaves_collapseTree (dead : List Nat → Bool) (c : List Nat → Rat) :
    ∀ t : JT, JTs.leavesL (collapseTree dead c t) = t.leaves
  | .leaf i l => by
      show [i] ++ [] = [i]
      rfl
  | .node nm l cs => by
      show JTs.leavesL (if dead nm then collapseList dead c cs
        else .cons (.node nm (c nm) (collapseList dead c cs)) .nil) = JTs.leavesL cs
      by_cases h : dead nm
      · rw [if_pos h]
        exact leaves_collapseList dead c cs
      · rw [if_neg h]
        show JTs.leavesL (collapseList dead c cs) ++ [] = JTs.leavesL cs
        rw [List.append_nil]
        exact leaves_collapseList dead c cs

theorem leaves_collapseList (dead : List Nat → Bool) (c : List Nat → Rat) :
    ∀ ts : JTs, JTs.leavesL (collapseList dead c ts) = JTs.leavesL ts
  | .nil => rfl
  | .cons t ts => by
      show JTs.leavesL ((collapseTree dead c t).append (collapseList dead c ts))
        = JT.leaves t ++ JTs.leavesL ts
      rw [JTs.leavesL_append, leaves_collapseTree dead c t, leaves_collapseList dead c ts]

end

mutual

theorem inner_rampTree (c : List Nat → Rat) :
    ∀ t : JT, (rampTree c t).innerEntries = t.innerEntries.map (fun q => (q.1, c q.1))
  | .leaf i l => rfl
  | .node nm l cs => by
      show (nm, c nm) :: JTs.innerEntriesL (rampList c cs)
        = ((nm, l) :: JTs.innerEntriesL cs).map (fun q => (q.1, c q.1))
      rw [List.map_cons, inner_rampList c cs]

theorem inner_rampList (c : List Nat → Rat) :
    ∀ ts : JTs, JTs.innerEntriesL (rampList c ts) = (JTs.innerEntriesL ts).map (fun q => (q.1, c q.1))
  | .nil => rfl
  | .cons t ts => by
      show (rampTree c t).innerEntries ++ JTs.innerEntriesL (rampList c ts)
        = (JT.innerEntries t ++ JTs.innerEntriesL ts).map (fun q => (q.1, c q.1))
      rw [List.map_append, inner_rampTree c t, inner_rampList c ts]

end

mutual

theorem inner_collapseTree (dead : List Nat → Bool) (c : List Nat → Rat) :
    ∀ t : JT, ∀ p ∈ JTs.innerEntriesL (collapseTree dead c t),
      dead p.1 = false ∧ p.2 = c p.1
  | .leaf i l => by
      intro p hp
      simp [collapseTree, JTs.innerEntriesL, JT.innerEntries] at hp
  | .node nm l cs => by
      intro p hp
      by_cases h : dead nm
      · rw [show collapseTree dead c (.node nm l cs) = collapseList dead c cs by
          simp [collapseTree, h]] at hp
        exact inner_collapseList dead c cs p hp
      · rw [show collapseTree dead c (.node nm l cs)
            = .cons (.node nm (c nm) (collapseList dead c cs)) .nil by
          simp [collapseTree, h]] at hp
        have hp2 : p ∈ (nm, c nm) :: JTs.innerEntriesL (collapseList dead c cs) := by
          simpa [JTs.innerEntriesL, JT.innerEntries] using hp
        rcases List.mem_cons.mp hp2 with hEq | hmem
        · subst hEq
          exact ⟨Bool.of_not_eq_true h, rfl⟩
        · exact inner_collapseList dead c cs p hmem

theorem inner_collapseList (dead : List Nat → Bool) (c : List Nat → Rat) :
    ∀ ts : JTs, ∀ p ∈ JTs.innerEntriesL (collapseList dead c ts),
      dead p.1 = false ∧ p.2 = c p.1
  | .nil => by
      intro p hp
      simp [collapseList, JTs.innerEntriesL] at hp
  | .cons t ts => by
      intro p hp
      rw [show collapseList dead c (.cons t ts)
          = (collapseTree dead c t).append (collapseList dead c ts) from rfl,
        JTs.innerEntriesL_append] at hp
      rcases List.mem_append.mp hp with h1 | h2
      · exact inner_collapseTree dead c t p h1
      · exact inner_collapseList dead c ts p h2

end

mutual

theorem leafE_rampTree (c : List Nat → Rat) :
    ∀ t : JT, (rampTree c t).leafEntries = t.leaves.map (fun i => (i, c [i]))
  | .leaf i l => rfl
  | .node nm l cs => by
      show JTs.leafEntriesL (rampList c cs) = (JTs.leavesL cs).map (fun i => (i, c [i]))
      exact leafE_rampList c cs

theorem leafE_rampList (c : List Nat → Rat) :
    ∀ ts : JTs, JTs.leafEntriesL (rampList c ts) = (JTs.leavesL ts).map (fun i => (i, c [i]))
  | .nil => rfl
  | .cons t ts => by
      show (rampTree c t).leafEntries ++ JTs.leafEntriesL (rampList c ts)
        = (JT.leaves t ++ JTs.leavesL ts).map (fun i => (i, c [i]))
      rw [List.map_append, leafE_rampTree c t, leafE_rampList c ts]

end

mutual

theorem leafE_collapseTree (dead : List Nat → Bool) (c : List Nat → Rat) :
    ∀ t : JT, JTs.leafEntriesL (collapseTree dead c t) = t.leaves.map (fun i => (i, c [i]))
  | .leaf i l => by
      show [(i, c [i])] ++ [] = [(i, c [i])]
      rfl
  | .node nm l cs => by
      show JTs.leafEntriesL (if dead nm then collapseList dead c cs
        else .cons (.node nm (c nm) (collapseList dead c cs)) .nil)
        = (JTs.leavesL cs).map (fun i => (i, c [i]))
      by_cases h : dead nm
      · rw [if_pos h]
        exact leafE_collapseList dead c cs
      · rw [if_neg h]
        show JTs.leafEntriesL (collapseList dead c cs) ++ []
          = (JTs.leavesL cs).map (fun i => (i, c [i]))
        rw [List.append_nil]
        exact leafE_collapseList dead c cs

theorem leafE_collapseList (dead : List Nat → Bool) (c : List Nat → Rat) :
    ∀ ts : JTs, JTs.leafEntriesL (collapseList dead c ts) = (JTs.leavesL ts).map (fun i => (i, c [i]))
  | .nil => rfl
  | .cons t ts => by
      show JTs.leafEntriesL ((collapseTree dead c t).append (collapseList dead c ts))
        = (JT.leaves t ++ JTs.leavesL ts).map (fun i => (i, c [i]))
      rw [JTs.leafEntriesL_append, List.map_append, leafE_collapseTree dead c t,
        leafE_collapseList dead c ts]

end

/-- Claim C2: on a tree pair with a common leaf set (the same leaves on both
sides, in whatever order the two topologies put them), the four synthesized
branchsets (ramp-down and collapse of tree 1 built from consdict1/consdict2,
collapse and ramp-up of tree 2 built from consdict3/consdict4) keep exactly
the leaf sequence of their own source tree and have exactly the common leaf
set of both sources; every inner split shared by both split lists carries
the averaged length in every synthesized tree containing it, every split
unique to one tree carries length 0 in that ramp tree, and all leaf edges
carry the averaged length. -/
theorem claim2_consensus_trees (s1 s2 : List (List Nat)) (d1 d2 : List Nat → Rat)
    (ts1 ts2 : JTs)
    (hleaf12 : ∀ i ∈ JTs.leavesL ts1, i ∈ JTs.leavesL ts2)
    (hleaf21 : ∀ i ∈ JTs.leavesL ts2, i ∈ JTs.leavesL ts1)
    (hs2 : ∀ i ∈ JTs.leavesL ts1, [i] ∈ s2)
    (hs1 : ∀ i ∈ JTs.leavesL ts2, [i] ∈ s1) :
    (JTs.leavesL (rampList (consdict1 s2 d1 d2) ts1) = JTs.leavesL ts1 ∧
      (∀ i, i ∈ JTs.leavesL (rampList (consdict1 s2 d1 d2) ts1)
        ↔ i ∈ JTs.leavesL ts2)) ∧
    (JTs.leavesL (collapseList (consdict2_deleted s2) (consdict1 s2 d1 d2) ts1)
        = JTs.leavesL ts1 ∧
      (∀ i, i ∈ JTs.leavesL (collapseList (consdict2_deleted s2) (consdict1 s2 d1 d2) ts1)
        ↔ i ∈ JTs.leavesL ts2)) ∧
    (JTs.leavesL (collapseList (consdict3_deleted s1) (consdict4 s1 d1 d2) ts2)
        = JTs.leavesL ts2 ∧
      (∀ i, i ∈ JTs.leavesL (collapseList (consdict3_deleted s1) (consdict4 s1 d1 d2) ts2)
        ↔ i ∈ JTs.leavesL ts1)) ∧
    (JTs.leavesL (rampList (consdict4 s1 d1 d2) ts2) = JTs.leavesL ts2 ∧
      (∀ i, i ∈ JTs.leavesL (rampList (consdict4 s1 d1 d2) ts2)
        ↔ i ∈ JTs.leavesL ts1)) ∧
    (∀ p ∈ JTs.innerEntriesL (rampList (consdict1 s2 d1 d2) ts1),
      (p.1 ∈ s2 → p.2 = (d1 p.1 + d2 p.1) / 2) ∧ (p.1 ∉ s2 → p.2 = 0)) ∧
    (∀ p ∈ JTs.innerEntriesL (collapseList (consdict2_deleted s2) (consdict1 s2 d1 d2) ts1),
      p.1 ∈ s2 ∧ p.2 = (d1 p.1 + d2 p.1) / 2) ∧
    (∀ p ∈ JTs.innerEntriesL (rampList (consdict4 s1 d1 d2) ts2),
      (p.1 ∈ s1 → p.2 = (d1 p.1 + d2 p.1) / 2) ∧ (p.1 ∉ s1 → p.2 = 0)) ∧
    (∀ p ∈ JTs.innerEntriesL (collapseList (consdict3_deleted s1) (consdict4 s1 d1 d2) ts2),
      p.1 ∈ s1 ∧ p.2 = (d1 p.1 + d2 p.1) / 2) ∧
    (∀ q ∈ JTs.leafEntriesL (rampList (consdict1 s2 d1 d2) ts1),
      q.2 = (d1 [q.1] + d2 [q.1]) / 2) ∧
    (∀ q ∈ JTs.leafEntriesL (collapseList (consdict2_deleted s2) (consdict1 s2 d1 d2) ts1),
      q.2 = (d1 [q.1] + d2 [q.1]) / 2) ∧
    (∀ q ∈ JTs.leafEntriesL (rampList (consdict4 s1 d1 d2) ts2),
      q.2 = (d1 [q.1] + d2 [q.1]) / 2) ∧
    (∀ q ∈ JTs.leafEntriesL (collapseList (consdict3_deleted s1) (consdict4 s1 d1 d2) ts2),
      q.2 = (d1 [q.1] + d2 [q.1]) / 2) := by
  refine ⟨⟨?_, ?_⟩, ⟨?_, ?_⟩, ⟨?_, ?_⟩, ⟨?_, ?_⟩, ?_, ?_, ?_, ?_, ?_, ?_, ?_, ?_⟩
  · exact leaves_rampList _ ts1
  · intro i
    rw [leaves_rampList _ ts1]
    exact ⟨hleaf12 i, hleaf21 i⟩
  · exact leaves_collapseList _ _ ts1
  · intro i
    rw [leaves_collapseList _ _ ts1]
    exact ⟨hleaf12 i, hleaf21 i⟩
  · exact leaves_collapseList _ _ ts2
  · intro i
    rw [leaves_collapseList _ _ ts2]
    exact ⟨hleaf21 i, hleaf12 i⟩
  · exact leaves_rampList _ ts2
  · intro i
    rw [leaves_rampList _ ts2]
    exact ⟨hleaf21 i, hleaf12 i⟩
  · intro p hp
    rw [inner_rampList] at hp
    rcases List.mem_map.mp hp with ⟨q, hq, rfl⟩
    constructor
    · intro hmem
      simp only [consdict1, if_pos hmem]
    · intro hmem
      simp only [consdict1, if_neg hmem]
  · intro p hp
    rcases inner_collapseList _ _ ts1 p hp with ⟨hdead, hval⟩
    have hmem : p.1 ∈ s2 := by
      simpa [consdict2_deleted] using hdead
    refine ⟨hmem, ?_⟩
    rw [hval]
    simp only [consdict1, if_pos hmem]
  · intro p hp
    rw [inner_rampList] at hp
    rcases List.mem_map.mp hp with ⟨q, hq, rfl⟩
    constructor
    · intro hmem
      simp only [consdict4, if_pos hmem]
    · intro hmem
      simp only [consdict4, if_neg hmem]
  · intro p hp
    rcases inner_collapseList _ _ ts2 p hp with ⟨hdead, hval⟩
    have hmem : p.1 ∈ s1 := by
      simpa [consdict3_deleted] using hdead
    refine ⟨hmem, ?_⟩
    rw [hval]
    simp only [consdict4, if_pos hmem]
  · intro q hq
    rw [leafE_rampList] at hq
    rcases List.mem_map.mp hq with ⟨i, hi, rfl⟩
    simp only [consdict1, if_pos (hs2 i hi)]
  · intro q hq
    rw [leafE_collapseList] at hq
    rcases List.mem_map.mp hq with ⟨i, hi, rfl⟩
    simp only [consdict1, if_pos (hs2 i hi)]
  · intro q hq
    rw [leafE_rampList] at hq
    rcases List.mem_map.mp hq with ⟨i, hi, rfl⟩
    simp only [consdict4, if_pos (hs1 i hi)]
  · intro q hq
    rw [leafE_collapseList] at hq
    rcases List.mem_map.mp hq with ⟨i, hi, rfl⟩
    simp only [consdict4, if_pos (hs1 i hi)]

/-- The branchset of the canonically sorted tree ((0,3),(1,2)): its leaf
sequence is 0, 3, 1, 2. -/
def wBranchset1 : JTs :=
  .cons (.node [0, 3] 1 (.cons (.leaf 0 1) (.cons (.leaf 3 1) .nil)))
    (.cons (.node [1, 2] 1 (.cons (.leaf 1 1) (.cons (.leaf 2 1) .nil))) .nil)

/-- The branchset of the tree ((0,1),(2,3)): its leaf sequence is 0, 1, 2, 3,
a different order over the same leaf set as wBranchset1. -/
def wBranchset2 : JTs :=
  .cons (.node [0, 1] 1 (.cons (.leaf 0 1) (.cons (.leaf 1 1) .nil)))
    (.cons (.node [2, 3] 1 (.cons (.leaf 2 1) (.cons (.leaf 3 1) .nil))) .nil)

/-- Witness for claim C2 at a topology-changing pair: the two trees share
the leaf set 0 to 3 but order it differently. -/
theorem claim2_consensus_trees_witness :
    JTs.leavesL (rampList
        (consdict1 [[0], [1], [2], [3], [0, 1], [2, 3]] (fun _ => 2) (fun _ => 4)) wBranchset1)
      = JTs.leavesL wBranchset1 ∧
      (0 ∈ JTs.leavesL (rampList
          (consdict1 [[0], [1], [2], [3], [0, 1], [2, 3]] (fun _ => 2) (fun _ => 4)) wBranchset1)
        ↔ 0 ∈ JTs.leavesL wBranchset2) := by
  have h := claim2_consensus_trees [[0], [3], [1], [2], [0, 3], [1, 2]]
    [[0], [1], [2], [3], [0, 1], [2, 3]] (fun _ => 2) (fun _ => 4)
    wBranchset1 wBranchset2 (by decide) (by decide) (by decide) (by decide)
  exact ⟨h.1.1, h.1.2 0⟩

/-- An element of a branchset that the collapse construction keeps in place:
a leaf, or an inner node whose split is not marked for deletion. -/
def keptElem (dead : List Nat → Bool) : JT → Bool
  | .leaf _ _ => true
  | .node nm _ _ => !(dead nm)

def JTs.allB (p : JT → Bool) : JTs → Bool
  | .nil => true
  | .cons t ts => p t && JTs.allB p ts

theorem JTs.append_assoc : ∀ a b c : JTs, (a.append b).append c = a.append (b.append c)
  | .nil, _, _ => rfl
  | .cons t ts, b, c => by
      show JTs.cons t ((ts.append b).append c) = JTs.cons t (ts.append (b.append c))
      rw [JTs.append_assoc ts b c]

theorem collapseList_append (dead : List Nat → Bool) (c : List Nat → Rat) :
    ∀ a b : JTs, collapseList dead c (a.append b)
      = (collapseList dead c a).append (collapseList dead c b)
  | .nil, b => rfl
  | .cons t ts, b => by
      show (collapseTree dead c t).append (collapseList dead c (ts.append b))
        = ((collapseTree dead c t).append (collapseList dead c ts)).append (collapseList dead c b)
      rw [collapseList_append dead c ts b, JTs.append_assoc]

theorem collapseList_kept_length (dead : List Nat → Bool) (c : List Nat → Rat) :
    ∀ ts : JTs, JTs.allB (keptElem dead) ts = true →
      JTs.length (collapseList dead c ts) = JTs.length ts
  | .nil, _ => rfl
  | .cons t ts, h => by
      have h2 : keptElem dead t = true ∧ JTs.allB (keptElem dead) ts = true := by
        simpa [JTs.allB, Bool.and_eq_true] using h
      show JTs.length ((collapseTree dead c t).append (collapseList dead c ts))
        = JTs.length ts + 1
      rw [JTs.length_append, collapseList_kept_length dead c ts h2.2]
      have hone : JTs.length (collapseTree dead c t) = 1 := by
        match t with
        | .leaf i l => rfl
        | .node nm l cs =>
            have hdn : dead nm = false := by
              simpa [keptElem] using h2.1
            show JTs.length (if dead nm then collapseList dead c cs
              else .cons (.node nm (c nm) (collapseList dead c cs)) .nil) = 1
            rw [hdn]
            rfl
      omega

/-- Claim C6: deleting one unique inner node (marked dead) from a branchset
splices its already-processed children in place, so when the surrounding
elements and the children are all kept the parent child count grows by
exactly the child count minus one, the splice composes with the recursive
processing of the rest of the list, and no leaf is lost or duplicated. -/
theorem claim6_collapse_splice (dead : List Nat → Bool) (c : List Nat → Rat)
    (l1 l2 cs : JTs) (nm : List Nat) (len : Rat)
    (hdead : dead nm = true)
    (h1 : JTs.allB (keptElem dead) l1 = true)
    (h2 : JTs.allB (keptElem dead) l2 = true)
    (hcs : JTs.allB (keptElem dead) cs = true) :
    collapseList dead c (l1.append (.cons (.node nm len cs) l2))
        = (collapseList dead c l1).append
            ((collapseList dead c cs).append (collapseList dead c l2)) ∧
      JTs.length (collapseList dead c (l1.append (.cons (.node nm len cs) l2))) + 1
        = JTs.length (l1.append (.cons (.node nm len cs) l2)) + JTs.length cs ∧
      JTs.leavesL (collapseList dead c (l1.append (.cons (.node nm len cs) l2)))
        = JTs.leavesL (l1.append (.cons (.node nm len cs) l2)) := by
  have hsplice : collapseList dead c (l1.append (.cons (.node nm len cs) l2))
      = (collapseList dead c l1).append
          ((collapseList dead c cs).append (collapseList dead c l2)) := by
    rw [collapseList_append]
    show (collapseList dead c l1).append
        ((collapseTree dead c (.node nm len cs)).append (collapseList dead c l2)) = _
    have hmid : collapseTree dead c (.node nm len cs) = collapseList dead c cs := by
      show (if dead nm then collapseList dead c cs
        else .cons (.node nm (c nm) (collapseList dead c cs)) .nil) = _
      rw [hdead]
      rfl
    rw [hmid]
  refine ⟨hsplice, ?_, leaves_collapseList dead c _⟩
  rw [hsplice, JTs.length_append, JTs.length_append, JTs.length_append,
    collapseList_kept_length dead c l1 h1, collapseList_kept_length dead c l2 h2,
    collapseList_kept_length dead c cs hcs]
  have hcons : JTs.length (JTs.cons (.node nm len cs) l2) = JTs.length l2 + 1 := rfl
  rw [hcons]
  omega

/-- Witness for claim C6: deleting the dead node 12 with two leaf children
from the branchset leaf 0, node 12, leaf 3. -/
theorem claim6_collapse_splice_witness :
    JTs.length (collapseList (fun nm => decide (nm = [1, 2])) (fun _ => 0)
        ((JTs.cons (.leaf 0 1) .nil).append
          (.cons (.node [1, 2] 5 (.cons (.leaf 1 1) (.cons (.leaf 2 1) .nil)))
            (.cons (.leaf 3 1) .nil)))) + 1
      = JTs.length ((JTs.cons (.leaf 0 1) .nil).append
          (.cons (.node [1, 2] 5 (.cons (.leaf 1 1) (.cons (.leaf 2 1) .nil)))
            (.cons (.leaf 3 1) .nil)))
        + JTs.length (.cons (.leaf 1 1) (.cons (.leaf 2 1) .nil)) :=
  (claim6_collapse_splice (fun nm => decide (nm = [1, 2])) (fun _ => 0)
    (JTs.cons (.leaf 0 1) .nil) (JTs.cons (.leaf 3 1) .nil)
    (JTs.cons (.leaf 1 1) (.cons (.leaf 2 1) .nil)) [1, 2] 5
    (by decide) (by decide) (by decide) (by decide)).2.1

/-- The output of delete_tree_leaves_for_coloring_newick (algorithm_5.py
lines 115-141): the two interpolated trees taken from positions 1 and 4 of
the rebuilt 6-tree block, the rebuilt leaf order, and the rewritten newick
pair. The ete3 and Treere rebuild work behind it stays an oracle parameter
of the loop model. -/
structure DeleteOut where
  it1 : PNode
  it2 : PNode
  sorted_nodes : List String
  newick_list : List String

/-- Embeds the per-round s-edge loop of algorithm_5 (algorithm_5.py lines
527-539) given the decoded per-edge verdicts: the first component is what
the round appends to global_decoded_result_list, the second is the final
value of decoded_list, which the loop reassigns on every edge instead of
accumulating, so it ends as the last verdict (or stays empty with no edge). -/
def algorithm5_round (edge_decoded : List (List String)) : List String × List String :=
  edge_decoded.foldl (fun acc d => (acc.1 ++ d, d)) ([], [])

/-- Embeds the pruning while-loop of algorithm_5 (algorithm_5.py lines
525-556). delete_leaves stands for delete_tree_leaves_for_coloring_newick
and sedge_vote for the decoded per-edge verdicts that traverse plus
algorithm_5_for_sedge produce on the current pair; fuel bounds the number of
rounds and none reports that it ran out, which claim C4 rules out. -/
def algorithm5_loop (delete_leaves : List String → List String → DeleteOut)
    (sedge_vote : PNode → PNode → List String → List (List String)) :
    Nat → DeleteOut → List String → Option (List String)
  | 0, _, _ => none
  | fuel + 1, st, glob =>
      let r := algorithm5_round (sedge_vote st.it1 st.it2 st.sorted_nodes)
      let glob2 := glob ++ r.1
      if 0 < r.2.length ∧ 3 < st.sorted_nodes.length - r.2.length then
        algorithm5_loop delete_leaves sedge_vote fuel (delete_leaves r.2 st.newick_list) glob2
      else some glob2.dedup

/-- Embeds algorithm_5 (algorithm_5.py lines 511-556): the first call
rebuilds everything from newick_list with an empty deletion list, and the
tree_list, sorted_nodes and file_name arguments are never read. -/
def algorithm_5 {α β : Type} (delete_leaves : List String → List String → DeleteOut)
    (sedge_vote : PNode → PNode → List String → List (List String)) (fuel : Nat)
    (tree_list : α) (sorted_nodes : List String) (file_name : β)
    (newick_list : List String) : Option (List String) :=
  algorithm5_loop delete_leaves sedge_vote fuel (delete_leaves [] newick_list) []

/-- Claim C3 evaluation: with two s-edges whose decoded verdicts are a and b,
the round hands the pruning step only the last verdict b, not the
de-duplicated union of the round, which the accumulated global list shows
would be a, b. -/
theorem claim3_deletes_last_verdict_only :
    algorithm5_round [["a"], ["b"]] = (["a", "b"], ["b"]) ∧
      (algorithm5_round [["a"], ["b"]]).2 ≠ ((["a"] ++ ["b"] : List String)).dedup := by
  decide

/-- If pruning brings the leaf count down by at least the number of deleted
leaves, any fuel of at least one covering leafCount - 3 rounds suffices for
the loop to reach its break. -/
theorem algorithm5_loop_fuel_isSome (delete_leaves : List String → List String → DeleteOut)
    (sedge_vote : PNode → PNode → List String → List (List String))
    (lc : List String → Nat)
    (hdel1 : ∀ (d nw : List String), d ≠ [] →
      lc (delete_leaves d nw).newick_list ≤ lc nw - d.length)
    (hdel2 : ∀ (d nw : List String),
      (delete_leaves d nw).sorted_nodes.length = lc (delete_leaves d nw).newick_list) :
    ∀ (fuel : Nat) (st : DeleteOut) (glob : List String),
      st.sorted_nodes.length = lc st.newick_list →
      1 ≤ fuel → st.sorted_nodes.length - 3 ≤ fuel →
      (algorithm5_loop delete_leaves sedge_vote fuel st glob).isSome = true := by
  intro fuel
  induction fuel with
  | zero => intro st glob hinv h1 h3; omega
  | succ fuel ih =>
      intro st glob hinv h1 h3
      show (algorithm5_loop delete_leaves sedge_vote (fuel + 1) st glob).isSome = true
      rw [algorithm5_loop]
      by_cases hguard : 0 < (algorithm5_round (sedge_vote st.it1 st.it2 st.sorted_nodes)).2.length ∧
          3 < st.sorted_nodes.length -
            (algorithm5_round (sedge_vote st.it1 st.it2 st.sorted_nodes)).2.length
      · rw [if_pos hguard]
        set d := (algorithm5_round (sedge_vote st.it1 st.it2 st.sorted_nodes)).2 with hd
        have hdne : d ≠ [] := by
          intro hc
          rw [hc] at hguard
          simp at hguard
        have hlow := hdel1 d st.newick_list hdne
        have hnewinv := hdel2 d st.newick_list
        apply ih
        · exact hnewinv
        · omega
        · omega
      · rw [if_neg hguard]
        rfl

/-- Claim C4: when the two trees share a leaf set of size at least 4 and each
pruning round removes at least the leaves it voted (the behaviour of
delete_tree_leaves_for_coloring_newick), the pruning while-loop of
algorithm_5 reaches its break within leafCount - 3 rounds: with that much
fuel it never runs out. -/
theorem claim4_pruning_terminates (delete_leaves : List String → List String → DeleteOut)
    (sedge_vote : PNode → PNode → List String → List (List String))
    (lc : List String → Nat)
    (hdel1 : ∀ (d nw : List String), d ≠ [] →
      lc (delete_leaves d nw).newick_list ≤ lc nw - d.length)
    (hdel2 : ∀ (d nw : List String),
      (delete_leaves d nw).sorted_nodes.length = lc (delete_leaves d nw).newick_list)
    (st : DeleteOut) (glob : List String)
    (hinv : st.sorted_nodes.length = lc st.newick_list)
    (hge : 4 ≤ st.sorted_nodes.length) :
    (algorithm5_loop delete_leaves sedge_vote (st.sorted_nodes.length - 3) st glob).isSome
      = true := by
  apply algorithm5_loop_fuel_isSome delete_leaves sedge_vote lc hdel1 hdel2
  · exact hinv
  · omega
  · omega

/-- A trivial tree for the loop witnesses. -/
def pnode0 : PNode := .mk [] 0 .nil

/-- A pruning oracle for the claim C4 witness: it returns a state whose leaf
order and newick store shrink by the number of deleted leaves. -/
def deleteOracle (d nw : List String) : DeleteOut :=
  ⟨pnode0, pnode0, List.replicate (nw.length - d.length) "x",
    List.replicate (nw.length - d.length) "x"⟩

/-- Witness for claim C4 on a four-leaf start state. -/
theorem claim4_pruning_terminates_witness :
    (algorithm5_loop deleteOracle (fun _ _ _ => [])
        ((["a", "b", "c", "d"] : List String).length - 3)
        ⟨pnode0, pnode0, ["a", "b", "c", "d"], ["p", "q", "r", "s"]⟩ []).isSome = true :=
  claim4_pruning_terminates deleteOracle (fun _ _ _ => []) (fun nw => nw.length)
    (fun d nw _ => by simp [deleteOracle])
    (fun d nw => by simp [deleteOracle])
    ⟨pnode0, pnode0, ["a", "b", "c", "d"], ["p", "q", "r", "s"]⟩ [] (by decide) (by decide)

/-- Claim C10: the jump-taxon engine reads only newick_list; the tree_list,
sorted_nodes and file_name arguments never influence the result, because the
first step re-derives the interpolated pair from newick_list alone. -/
theorem claim10_only_newick_matters {α β : Type}
    (delete_leaves : List String → List String → DeleteOut)
    (sedge_vote : PNode → PNode → List String → List (List String)) (fuel : Nat)
    (t t' : α) (sn sn' : List String) (fn fn' : β) (nwl : List String) :
    algorithm_5 delete_leaves sedge_vote fuel t sn fn nwl
      = algorithm_5 delete_leaves sedge_vote fuel t' sn' fn' nwl := rfl

/-- Replace every occurrence of one character; all replace calls of the
decoder replace single characters. -/
def replaceAllChar (a b : Char) (l : List Char) : List Char :=
  l.map (fun c => if c = a then b else c)

/-- Split a character list on a separator character, Python str.split. -/
def splitOnChar (a : Char) : List Char → List (List Char)
  | [] => [[]]
  | c :: r =>
      match splitOnChar a r with
      | [] => [[c]]
      | g :: gs => if c = a then [] :: g :: gs else (c :: g) :: gs

/-- Python str.strip on a character list. -/
def trimChars (l : List Char) : List Char :=
  ((l.dropWhile (fun c => c.isWhitespace)).reverse.dropWhile (fun c => c.isWhitespace)).reverse

def digitsToNat (l : List Char) : Nat :=
  l.foldl (fun a c => a * 10 + (c.toNat - '0'.toNat)) 0

/-- Break a character list at the first character satisfying p; the second
component remembers whether such a character existed. -/
def breakAt (p : Char → Bool) : List Char → List Char × Option (List Char)
  | [] => ([], none)
  | c :: r =>
      if p c then ([], some r)
      else
        let (a, b) := breakAt p r
        (c :: a, b)

/-- Model of the Python float builtin on the decimal grammar sign, digits,
optional fraction, optional exponent; the special spellings inf and nan and
underscore separators are not modelled. A none result is the ValueError that
float raises on any other string. -/
def pyFloat (s : String) : Option Rat :=
  let t := trimChars s.toList
  let sgnSplit : Rat × List Char :=
    match t with
    | '+' :: r => (1, r)
    | '-' :: r => (-1, r)
    | r => (1, r)
  let mantSplit := breakAt (fun c => c == 'e' || c == 'E') sgnSplit.2
  let mantVal : Option Rat :=
    match breakAt (fun c => c == '.') mantSplit.1 with
    | (ip, none) =>
        if ip ≠ [] ∧ ip.all Char.isDigit then some ((digitsToNat ip : Rat)) else none
    | (ip, some fp) =>
        if (ip ++ fp) ≠ [] ∧ ip.all Char.isDigit ∧ fp.all Char.isDigit then
          some ((digitsToNat (ip ++ fp) : Rat) / ((10 : Rat) ^ fp.length))
        else none
  let expVal : Option Int :=
    match mantSplit.2 with
    | none => some 0
    | some e =>
        let esSplit : Int × List Char :=
          match e with
          | '+' :: r => (1, r)
          | '-' :: r => (-1, r)
          | r => (1, r)
        if esSplit.2 ≠ [] ∧ esSplit.2.all Char.isDigit then
          some (esSplit.1 * (digitsToNat esSplit.2 : Int))
        else none
  match mantVal, expVal with
  | some m, some e => some (sgnSplit.1 * m * (10 : Rat) ^ e)
  | _, _ => none

/-- The character loop of parseNode (Treere.py lines 83-111): tracks the
parenthesis depth, skips the first opening parenthesis without advancing the
index, rewrites nested commas to bars, and on the closing parenthesis of
depth one returns the trailing text from index plus two. -/
def parseNodeGo (s : String) : List Char → Int → Nat → List Char → String × List Char
  | [], _, _, proc => ("", proc)
  | ch :: rest, pc, idx, proc =>
      if ch = '(' then
        if pc + 1 = 1 then parseNodeGo s rest (pc + 1) idx proc
        else parseNodeGo s rest (pc + 1) (idx + 1) (proc ++ ['('])
      else if ch = ')' then
        if pc - 1 = 0 then
          if idx + 2 > s.length then ("", proc)
          else (String.mk (s.toList.drop (idx + 2)), proc)
        else parseNodeGo s rest (pc - 1) (idx + 1) (proc ++ [')'])
      else if ch = ',' then
        if pc ≠ 1 then parseNodeGo s rest pc (idx + 1) (proc ++ ['|'])
        else parseNodeGo s rest pc (idx + 1) (proc ++ [','])
      else parseNodeGo s rest pc (idx + 1) (proc ++ [ch])

/-- Embeds parseNode (Treere.py lines 83-135): splits one level of the
newick string into the node label, its distance text and the child item
strings; the distance stays a raw string here. -/
def parseNode (s : String) : String × String × List String :=
  let r := parseNodeGo s s.toList 0 0 []
  let data := (splitOnChar ',' r.2).map (fun d => String.mk (replaceAllChar '|' ',' d))
  let t := trimChars r.1.toList
  if ¬ t.any (fun c => c = ':') then
    (String.mk (replaceAllChar '.' '-' t), "", data)
  else
    (String.mk (replaceAllChar '.' '-' (t.takeWhile (fun c => c ≠ ':'))),
      String.mk ((t.dropWhile (fun c => c ≠ ':')).drop 1), data)

/-- The json values recurseBuild produces: a leaf dict whose length is a
float or the empty string (none), the raw string list of the commas-only
fallthrough branch, or an inner dict whose length stays a string. -/
inductive PyTree where
  | leafD (name : String) (length : Option Rat)
  | listD (items : List String)
  | nodeD (name : String) (length : String) (children : List PyTree)

/-- Embeds recurseBuild (Treere.py lines 137-164). The error value models
the ValueError that the float call on a leaf distance raises, which no
caller catches; fuel only bounds the recursion depth for the embedding. -/
def recurseBuild (fuel : Nat) (s0 : String) : Except String PyTree :=
  match fuel with
  | 0 => .error "fuel"
  | fuel + 1 =>
      let s := String.mk (s0.toList.filter (fun c => c ≠ ';'))
      if ¬ s.toList.any (fun c => c = '(') then
        if (splitOnChar ',' s.toList).length = 1 then
          if ¬ s.toList.any (fun c => c = ':') then .ok (.leafD s none)
          else
            let label := String.mk
              (replaceAllChar '.' '-' (s.toList.takeWhile (fun c => c ≠ ':')))
            let dist := String.mk ((s.toList.dropWhile (fun c => c ≠ ':')).drop 1)
            match pyFloat dist with
            | some q => .ok (.leafD label (some q))
            | none => .error "ValueError: could not convert string to float"
        else .ok (.listD ((splitOnChar ',' s.toList).map String.mk))
      else
        let lds := parseNode s
        let label2 := String.mk (replaceAllChar '.' '-' lds.1.toList)
        (lds.2.2.mapM (recurseBuild fuel)).map (fun children => .nodeD label2 lds.2.1 children)

/-- The error message of a decoder result, if it is an error. -/
def exceptErrMsg : Except String PyTree → Option String
  | .error m => some m
  | .ok _ => none

/-- Claim C9 evaluation: the well-formed pair parses, but the same tree with
the malformed leaf distance x makes the embedded decoder return the
ValueError error value, the model of the uncaught Python exception; no
decoder-level handler exists and no empty tree list is signalled. -/
theorem claim9_malformed_distance_escapes :
    (recurseBuild 4 "(A:1,B:2);").isOk = true ∧
      exceptErrMsg (recurseBuild 4 "(A:1,B:x);")
        = some "ValueError: could not convert string to float" := by
  constructor
  · decide
  · decide

end Phylo


